import Mathlib

/-!
Verification of the classification-and-aggregation core of the
pkgcheck-result-parser repository (pkgcheck2html.py / xml2html.py),
shallowly embedded in Lean 4.

Diagnostic records are embedded as a structure of their four locator/class
text fields; XML access (`findtext`, defaulting to the empty string) is
reflected by taking every field to be a plain string, with absence encoded
as `""` exactly as the source does.  Python dicts appearing in the
configuration are embedded as association lists with first-match lookup,
dict/set indexes used by `find_of_class` as insertion-ordered association
structures that are explicitly sorted at the end, `sorted(...)` as insertion
sort by the corresponding Python tuple order, and file-system collaborators
(`os.stat`, reading `metadata.xml`, `projects.xml`) as explicit function
parameters.
-/

/-- One diagnostic record (Python `Result`): the four text fields the core
reads from an XML element via `findtext`, missing fields being `""`. -/
structure Result where
  cls : String
  category : String
  package : String
  version : String
deriving DecidableEq

/-- `dict.get(k, default)` over an association-list embedding of a Python
dict (first matching key wins). -/
def alistGet {α : Type} (m : List (String × α)) (k : String) : Option α :=
  (m.find? (fun p => p.1 == k)).map (fun p => p.2)

/-- `ClassMapping` (pkgcheck2html.py lines 20-30): the base class→severity
mapping plus the nested excludes structure
category → package → version → list of class names. -/
structure ClassMapping where
  class_mapping : List (String × String)
  excludes : List (String × List (String × List (String × List String)))

/-- The chained lookup `excludes.get(cat, {}).get(pkg, {}).get(ver, [])`
performed by `ClassMapping.map`. -/
def ClassMapping.excludesAt (cm : ClassMapping) (cat pkg ver : String) :
    List String :=
  ((alistGet ((alistGet cm.excludes cat).getD []) pkg).getD []
    |> fun m => (alistGet m ver).getD [])

/-- `ClassMapping.map` (pkgcheck2html.py lines 25-30): an excluded class at
this exact locator maps to `""`; otherwise `class_mapping.get(cls, '')`. -/
def ClassMapping.map (cm : ClassMapping) (cls cat pkg ver : String) : String :=
  if cls ∈ cm.excludesAt cat pkg ver then ""
  else (alistGet cm.class_mapping cls).getD ""

/-- `Result.css_class` (pkgcheck2html.py lines 41-43). -/
def Result.css_class (cm : ClassMapping) (r : Result) : String :=
  cm.map r.cls r.category r.package r.version

/-- `Result.verbose` (pkgcheck2html.py lines 45-47). -/
def Result.verbose (cm : ClassMapping) (r : Result) : Bool :=
  Result.css_class cm r == "verbose"

/-- `result_sort_key` (pkgcheck2html.py lines 50-51), as the list of the
four components of the Python tuple. -/
def result_sort_key (r : Result) : List String :=
  [r.category, r.package, r.version, r.cls]

/-- Strict code-point comparison of two character lists, as Python compares
strings. -/
def charListLtb : List Char → List Char → Bool
  | [], [] => false
  | [], _ :: _ => true
  | _ :: _, [] => false
  | a :: as, b :: bs =>
    if a < b then true else if b < a then false else charListLtb as bs

/-- Python string `<` on the underlying character lists. -/
def pyLt (a b : String) : Prop :=
  charListLtb a.data b.data = true

instance (a b : String) : Decidable (pyLt a b) :=
  inferInstanceAs (Decidable (_ = true))

theorem charListLtb_trichotomy : ∀ as bs,
    charListLtb as bs = true ∨ as = bs ∨ charListLtb bs as = true := by
  intro as
  induction as with
  | nil =>
    intro bs
    cases bs with
    | nil => exact Or.inr (Or.inl rfl)
    | cons b bs' => exact Or.inl (by simp [charListLtb])
  | cons a as' ih =>
    intro bs
    cases bs with
    | nil => exact Or.inr (Or.inr (by simp [charListLtb]))
    | cons b bs' =>
      rcases lt_trichotomy a b with h | h | h
      · exact Or.inl (by simp [charListLtb, h])
      · subst h
        rcases ih bs' with h2 | h2 | h2
        · exact Or.inl (by simp [charListLtb, lt_irrefl, h2])
        · exact Or.inr (Or.inl (by rw [h2]))
        · exact Or.inr (Or.inr (by simp [charListLtb, lt_irrefl, h2]))
      · exact Or.inr (Or.inr (by simp [charListLtb, h]))

theorem charListLtb_trans : ∀ as bs cs, charListLtb as bs = true →
    charListLtb bs cs = true → charListLtb as cs = true := by
  intro as
  induction as with
  | nil =>
    intro bs cs hab hbc
    cases bs with
    | nil => simp [charListLtb] at hab
    | cons b bs' =>
      cases cs with
      | nil => simp [charListLtb] at hbc
      | cons c cs' => simp [charListLtb]
  | cons a as' ih =>
    intro bs cs hab hbc
    cases bs with
    | nil => simp [charListLtb] at hab
    | cons b bs' =>
      cases cs with
      | nil => simp [charListLtb] at hbc
      | cons c cs' =>
        simp only [charListLtb] at hab hbc ⊢
        by_cases h1 : a < b
        · by_cases h2 : b < c
          · simp [lt_trans h1 h2]
          · by_cases h3 : c < b
            · simp [h2, h3] at hbc
            · have hbc_eq : b = c := le_antisymm (not_lt.mp h3) (not_lt.mp h2)
              subst hbc_eq
              simp [h1]
        · by_cases h1' : b < a
          · simp [h1, h1'] at hab
          · have hab_eq : a = b := le_antisymm (not_lt.mp h1') (not_lt.mp h1)
            subst hab_eq
            simp [h1, h1'] at hab
            by_cases h2 : a < c
            · simp [h2]
            · by_cases h2' : c < a
              · simp [h2, h2'] at hbc
              · simp only [h2, h2', if_false] at hbc ⊢
                exact ih bs' cs' hab hbc

theorem pyLt_trichotomy (a b : String) : pyLt a b ∨ a = b ∨ pyLt b a := by
  rcases charListLtb_trichotomy a.data b.data with h | h | h
  · exact Or.inl h
  · exact Or.inr (Or.inl (String.ext h))
  · exact Or.inr (Or.inr h)

theorem pyLt_trans {a b c : String} (h1 : pyLt a b) (h2 : pyLt b c) :
    pyLt a c :=
  charListLtb_trans _ _ _ h1 h2

/-- Python tuple comparison (`≤`) on string tuples of possibly different
lengths: lexicographic, a strict prefix being smaller. -/
def tupLe : List String → List String → Prop
  | [], _ => True
  | _ :: _, [] => False
  | a :: as, b :: bs => pyLt a b ∨ (a = b ∧ tupLe as bs)

instance tupLe.instDecidable : ∀ xs ys, Decidable (tupLe xs ys)
  | [], _ => isTrue trivial
  | _ :: _, [] => isFalse (fun h => h)
  | a :: as, b :: bs =>
    have : Decidable (tupLe as bs) := tupLe.instDecidable as bs
    inferInstanceAs (Decidable (_ ∨ _))

instance : IsTotal (List String) tupLe := by
  constructor
  intro a
  induction a with
  | nil => intro b; left; trivial
  | cons x xs ih =>
    intro b
    cases b with
    | nil => right; trivial
    | cons y ys =>
      rcases pyLt_trichotomy x y with h | h | h
      · left; left; exact h
      · rcases ih ys with h2 | h2
        · left; right; exact ⟨h, h2⟩
        · right; right; exact ⟨h.symm, h2⟩
      · right; left; exact h

instance : IsTrans (List String) tupLe := by
  constructor
  intro a
  induction a with
  | nil => intro b c _ _; trivial
  | cons x xs ih =>
    intro b c hab hbc
    cases b with
    | nil => exact absurd hab (by simp [tupLe])
    | cons y ys =>
      cases c with
      | nil => exact absurd hbc (by simp [tupLe])
      | cons z zs =>
        rcases hab with h1 | ⟨h1, h1'⟩
        · rcases hbc with h2 | ⟨h2, _⟩
          · exact Or.inl (pyLt_trans h1 h2)
          · exact Or.inl (h2 ▸ h1)
        · rcases hbc with h2 | ⟨h2, h2'⟩
          · exact Or.inl (h1 ▸ h2)
          · exact Or.inr ⟨h1.trans h2, ih ys zs h1' h2'⟩


/-- The record order used by `sorted(..., key=result_sort_key)`. -/
def recLe (a b : Result) : Prop :=
  tupLe (result_sort_key a) (result_sort_key b)

instance : DecidableRel recLe := fun a b =>
  inferInstanceAs (Decidable (tupLe _ _))

/-- A record sequence sorted by `(category, package, version, class)`,
as produced by `sorted(..., key=result_sort_key)` in `main`. -/
def sortedByKey (l : List Result) : Prop :=
  List.Pairwise recLe l

instance (l : List Result) : Decidable (sortedByKey l) :=
  inferInstanceAs (Decidable (List.Pairwise _ _))

/-- `get_results` (pkgcheck2html.py lines 54-66), after XML parsing: the
verbose check is applied first, then the supplied predicate
(`pkg_filter`, which `main` instantiates with the combined
maintainer-and-package filter). -/
def get_results (cm : ClassMapping) (verbose_flag : Bool)
    (pkg_filter : Result → Bool) : List Result → List Result
  | [] => []
  | r :: rest =>
    if Result.verbose cm r && !verbose_flag then
      get_results cm verbose_flag pkg_filter rest
    else if !(pkg_filter r) then
      get_results cm verbose_flag pkg_filter rest
    else r :: get_results cm verbose_flag pkg_filter rest

/-- The group key of one record (`split_result_group`, pkgcheck2html.py
lines 69-78 and xml2html.py lines 59-68): the `if not r.category / not
r.package / not r.version` cascade. -/
def split_result_group1 (r : Result) : List String :=
  if r.category = "" then []
  else if r.package = "" then [r.category]
  else if r.version = "" then [r.category, r.package]
  else [r.category, r.package, r.version]

/-- `split_result_group` over a whole sequence. -/
def split_result_group (l : List Result) : List (List String × Result) :=
  l.map (fun r => (split_result_group1 r, r))

/-- The locator triple of a record, in field order, used to state what
`split_result_group1` computes. -/
def locator_fields (r : Result) : List String :=
  [r.category, r.package, r.version]

/-- `get_result_timestamp` (pkgcheck2html.py lines 115-118): the body
returns inside the first loop iteration, so only the first path is ever
inspected; an empty path list falls through to `None`.  `stat` embeds
`os.stat(p).st_mtime`. -/
def get_result_timestamp (stat : String → Nat) : List String → Option Nat
  | [] => none
  | p :: _ => some (stat p)

/-- The timestamp selection in `main` (pkgcheck2html.py lines 245-248):
an explicit `-t` override wins, otherwise `get_result_timestamp`. -/
def main_ts (override : Option Nat) (stat : String → Nat)
    (files : List String) : Option Nat :=
  match override with
  | some t => some t
  | none => get_result_timestamp stat files

/-- The earliest (minimum) modification time among a list of files; this is
what the specification says the derived timestamp should be. -/
def earliest_mtime (stat : String → Nat) : List String → Option Nat
  | [] => none
  | p :: ps =>
    match earliest_mtime stat ps with
    | none => some (stat p)
    | some t => some (Nat.min (stat p) t)

/-- A stat function under which the second input file is strictly older
than the first. -/
def stat9 : String → Nat := fun p => if p == "b" then 3 else 5

/-- C3: `ClassMapping.map` returns `""` for a class excluded at the exact
locator, regardless of the base mapping, and otherwise returns the base
mapping's entry, defaulting to `""`; the lookup is total (missing levels
default to empty, nothing is raised). -/
theorem class_mapping_resolve (cm : ClassMapping) (cls cat pkg ver : String) :
    (cls ∈ cm.excludesAt cat pkg ver → cm.map cls cat pkg ver = "") ∧
    (cls ∉ cm.excludesAt cat pkg ver →
      cm.map cls cat pkg ver = (alistGet cm.class_mapping cls).getD "") := by
  constructor
  · intro h
    simp [ClassMapping.map, h]
  · intro h
    simp [ClassMapping.map, h]

/-- A concrete configuration on which the two branches of
`class_mapping_resolve` are exercised. -/
def cm3 : ClassMapping :=
  { class_mapping := [("X", "err"), ("Y", "warn")]
    excludes := [("c", [("p", [("v", ["X"])])])] }

/-- Witness for C3 at a concrete configuration: the excluded class maps to
`""` despite its base severity, the non-excluded one to its base severity. -/
theorem class_mapping_resolve_witness :
    ("X" ∈ cm3.excludesAt "c" "p" "v" ∧ cm3.map "X" "c" "p" "v" = "") ∧
    ("Y" ∉ cm3.excludesAt "c" "p" "v" ∧ cm3.map "Y" "c" "p" "v" = "warn") := by
  refine ⟨⟨by decide, (class_mapping_resolve cm3 "X" "c" "p" "v").1 (by decide)⟩,
    ⟨by decide, ?_⟩⟩
  exact ((class_mapping_resolve cm3 "Y" "c" "p" "v").2 (by decide)).trans (by decide)

/-- C10: the group key of a record is the longest prefix of
(category, package, version) with no empty component: the `split_result_group`
cascade stops at the first empty field, and the key never contains `""`. -/
theorem split_result_group_longest_prefix (r : Result) :
    split_result_group1 r = (locator_fields r).takeWhile (fun s => s != "") ∧
    ∀ s ∈ split_result_group1 r, s ≠ "" := by
  unfold split_result_group1 locator_fields
  by_cases hc : r.category = "" <;> by_cases hp : r.package = "" <;>
    by_cases hv : r.version = "" <;>
      simp_all [List.takeWhile_cons]

/-- A record with an empty package but non-empty category and version: its
key ignores everything after the first empty component. -/
def r10 : Result := { cls := "X", category := "a", package := "", version := "v" }

/-- Witness for C10 at a concrete record violating the locator-prefix
invariant. -/
theorem split_result_group_longest_prefix_witness :
    split_result_group1 r10 = (locator_fields r10).takeWhile (fun s => s != "") ∧
    ∀ s ∈ split_result_group1 r10, s ≠ "" :=
  split_result_group_longest_prefix r10

/-- C9 counterexample: with no override and input files `["a", "b"]` where
`"b"` is strictly older, the timestamp handed on is the first file's
mtime, not the earliest one. -/
theorem timestamp_first_not_earliest_cex :
    main_ts none stat9 ["a", "b"] = some (stat9 "a") ∧
    stat9 "b" < stat9 "a" ∧
    main_ts none stat9 ["a", "b"] ≠ earliest_mtime stat9 ["a", "b"] := by
  refine ⟨rfl, by decide, by decide⟩

/-- C9 (amended): with no explicit override, the timestamp is derived from
the FIRST input file's modification time, for every non-empty file list. -/
theorem main_ts_first_file (stat : String → Nat) (p : String)
    (ps : List String) :
    main_ts none stat (p :: ps) = some (stat p) := rfl

/-- The loop of `group_results` (pkgcheck2html.py lines 81-92): `prev_group`
and `prev_l` are the accumulator pair; a group is flushed when the
truncated key changes and `prev_l` is non-empty, and the trailing group is
always flushed once at end of input. -/
def group_results_aux (level : Nat) :
    List (List String × Result) → List String → List Result →
      List (List String × List Result)
  | [], prev_group, prev_l => [(prev_group, prev_l)]
  | (g, r) :: rest, prev_group, prev_l =>
    if g.take level ≠ prev_group then
      (if prev_l ≠ [] then [(prev_group, prev_l)] else []) ++
        group_results_aux level rest (g.take level) [r]
    else
      group_results_aux level rest prev_group (prev_l ++ [r])

/-- `group_results` (pkgcheck2html.py lines 81-92). -/
def group_results (l : List Result) (level : Nat) :
    List (List String × List Result) :=
  group_results_aux level (split_result_group l) [] []

/-- The tree produced by `deep_group`: internal nodes carry the
`(group key, subtree)` pairs that the generator yields, leaves the flat
record runs flushed at recursion depth 4. -/
inductive GTree where
  | leaf : List Result → GTree
  | node : List (List String × GTree) → GTree

/-- `deep_group` (pkgcheck2html.py lines 95-101): regroup at the current
level; below level 3 yield `(key, recursive grouping)` pairs, above it
yield the records themselves, flat. -/
def deep_group (l : List Result) (level : Nat) : GTree :=
  if h : level > 3 then
    GTree.leaf (((group_results l level).map (fun p => p.2)).flatten)
  else
    GTree.node ((group_results l level).map
      (fun p => (p.1, deep_group p.2 (level + 1))))
termination_by 4 - level
decreasing_by omega

/-- Concatenation of the leaves of a grouping tree, in tree order. -/
def gtree_leaves : GTree → List Result
  | GTree.leaf l => l
  | GTree.node [] => []
  | GTree.node ((_, t) :: rest) => gtree_leaves t ++ gtree_leaves (GTree.node rest)

theorem group_results_aux_flatten (level : Nat) :
    ∀ (l : List (List String × Result)) (pg : List String) (pl : List Result),
      ((group_results_aux level l pg pl).map (fun p => p.2)).flatten =
        pl ++ l.map (fun p => p.2) := by
  intro l
  induction l with
  | nil => intro pg pl; simp [group_results_aux]
  | cons hd rest ih =>
    intro pg pl
    obtain ⟨g, r⟩ := hd
    unfold group_results_aux
    by_cases hg : g.take level ≠ pg
    · rw [if_pos hg]
      by_cases hpl : pl ≠ []
      · simp [hpl, ih]
      · simp only [ne_eq, not_not] at hpl
        simp [hpl, ih]
    · rw [if_neg hg]
      simp [ih]

theorem group_results_flatten (l : List Result) (level : Nat) :
    ((group_results l level).map (fun p => p.2)).flatten = l := by
  unfold group_results
  rw [group_results_aux_flatten]
  simp [split_result_group, List.map_map, Function.comp_def]

theorem gtree_leaves_node (entries : List (List String × GTree)) :
    gtree_leaves (GTree.node entries) =
      (entries.map (fun p => gtree_leaves p.2)).flatten := by
  induction entries with
  | nil => simp [gtree_leaves]
  | cons hd rest ih =>
    obtain ⟨g, t⟩ := hd
    simp [gtree_leaves, ih]

theorem deep_group_leaves_aux :
    ∀ (n level : Nat), 4 - level = n →
      ∀ l : List Result, gtree_leaves (deep_group l level) = l := by
  intro n
  induction n with
  | zero =>
    intro level hlev l
    have h3 : level > 3 := by omega
    unfold deep_group
    rw [dif_pos h3]
    simp only [gtree_leaves]
    exact group_results_flatten l level
  | succ n ih =>
    intro level hlev l
    have h3 : ¬ level > 3 := by omega
    unfold deep_group
    rw [dif_neg h3, gtree_leaves_node, List.map_map]
    have hcong : ∀ p ∈ group_results l level,
        ((fun p => gtree_leaves p.2) ∘
          (fun p => (p.1, deep_group p.2 (level + 1)))) p =
          (fun p => p.2) p := by
      intro p _
      exact ih (level + 1) (by omega) p.2
    rw [List.map_congr_left hcong]
    exact group_results_flatten l level

/-- C1: for a record sequence sorted by (category, package, version, class)
and any grouping depth in {1,2,3}, concatenating the records in the leaves
of `deep_group`'s output tree in tree order reproduces the input exactly. -/
theorem deep_group_lossless (S : List Result) (d : Nat)
    (hd : d = 1 ∨ d = 2 ∨ d = 3) (hs : sortedByKey S) :
    gtree_leaves (deep_group S d) = S :=
  deep_group_leaves_aux (4 - d) d rfl S

/-- A small sorted record sequence with two categories and a record with an
empty version field. -/
def s1 : List Result :=
  [{ cls := "X", category := "a", package := "b", version := "" },
   { cls := "X", category := "a", package := "b", version := "1" },
   { cls := "Y", category := "c", package := "d", version := "2" }]

/-- Witness for C1: the hypotheses hold at depth 2 on `s1`, and the
flattened tree is `s1` again. -/
theorem deep_group_lossless_witness :
    ((2 = 1 ∨ 2 = 2 ∨ 2 = 3) ∧ sortedByKey s1) ∧
      gtree_leaves (deep_group s1 2) = s1 :=
  ⟨⟨by decide, by decide⟩, deep_group_lossless s1 2 (by decide) (by decide)⟩

theorem charListLtb_irrefl : ∀ as, charListLtb as as = false := by
  intro as
  induction as with
  | nil => rfl
  | cons a as' ih => simp [charListLtb, lt_irrefl, ih]

theorem pyLt_irrefl (a : String) : ¬ pyLt a a := by
  intro h
  rw [pyLt, charListLtb_irrefl] at h
  exact Bool.false_ne_true h

theorem pyLt_asymm {a b : String} (h : pyLt a b) : ¬ pyLt b a := by
  intro h2
  exact pyLt_irrefl a (pyLt_trans h h2)

/-- Python string `≤` (the negation of the reverse strict comparison). -/
def pyLe (a b : String) : Prop :=
  ¬ pyLt b a

instance (a b : String) : Decidable (pyLe a b) :=
  inferInstanceAs (Decidable (¬ _))

theorem pyLe_total (a b : String) : pyLe a b ∨ pyLe b a := by
  by_cases h : pyLt b a
  · exact Or.inr (pyLt_asymm h)
  · exact Or.inl h

theorem pyLe_trans {a b c : String} (h1 : pyLe a b) (h2 : pyLe b c) :
    pyLe a c := by
  intro hca
  rcases pyLt_trichotomy c b with h | h | h
  · exact h2 h
  · exact h1 (h ▸ hca)
  · exact h1 (pyLt_trans h hca)

/-- Insertion into the `collections.defaultdict(set)` accumulator of
`find_of_class`: the entry for `k` gains `g` with set semantics (no
duplicate group keys); a fresh class name is appended. -/
def dd_add (out : List (String × List (List String))) (k : String)
    (g : List String) : List (String × List (List String)) :=
  match out with
  | [] => [(k, [g])]
  | (k2, gs) :: rest =>
    if k2 = k then (k2, if g ∈ gs then gs else gs ++ [g]) :: rest
    else (k2, gs) :: dd_add rest k g

/-- The filled `out` accumulator of `find_of_class` (pkgcheck2html.py lines
104-111), before the final sorting: for every record of the requested
severity in every depth-`level` group, the group key is added to the set
kept for the record's class name. -/
def find_of_class_out (cm : ClassMapping) (l : List Result) (cls : String)
    (level : Nat) : List (String × List (List String)) :=
  (group_results l level).foldl
    (fun out p =>
      p.2.foldl
        (fun out2 x =>
          if Result.css_class cm x = cls then dd_add out2 x.cls p.1 else out2)
        out)
    []

/-- The order of `sorted(out.items())`: Python's tuple comparison on the
`(class name, set)` items never reaches the second component because dict
keys are unique, so items are ordered by class name. -/
def itemLe (a b : String × List (List String)) : Prop :=
  pyLe a.1 b.1

instance : DecidableRel itemLe := fun a b =>
  inferInstanceAs (Decidable (¬ _))

instance : IsTotal (String × List (List String)) itemLe :=
  ⟨fun a b => pyLe_total a.1 b.1⟩

instance : IsTrans (String × List (List String)) itemLe :=
  ⟨fun _ _ _ h1 h2 => pyLe_trans h1 h2⟩

instance : DecidableRel tupLe := tupLe.instDecidable

/-- `find_of_class` (pkgcheck2html.py lines 104-112): the accumulator's
items sorted by class name, each class's set of group keys sorted by the
tuple order.  Python's `sorted` (a stable comparison sort) is embedded as
insertion sort by the same order. -/
def find_of_class (cm : ClassMapping) (l : List Result) (cls : String) :
    List (String × List (List String)) :=
  ((find_of_class_out cm l cls 2).insertionSort itemLe).map
    (fun p => (p.1, p.2.insertionSort tupLe))

/-- `(k, g)` is recorded in the accumulator: some entry for class `k`
contains the group key `g`. -/
def hasPair (out : List (String × List (List String))) (k : String)
    (g : List String) : Prop :=
  ∃ gs, (k, gs) ∈ out ∧ g ∈ gs

theorem foldl_invariant {α β : Type} (P : β → Prop) (f : β → α → β)
    (hf : ∀ b a, P b → P (f b a)) :
    ∀ (l : List α) (b : β), P b → P (l.foldl f b) := by
  intro l
  induction l with
  | nil => intro b hb; exact hb
  | cons x xs ih => intro b hb; exact ih (f b x) (hf b x hb)

theorem dd_add_hasPair_self (out : List (String × List (List String)))
    (k : String) (g : List String) : hasPair (dd_add out k g) k g := by
  induction out with
  | nil => exact ⟨[g], List.mem_singleton.mpr rfl, List.mem_singleton.mpr rfl⟩
  | cons hd rest ih =>
    obtain ⟨k2, gs⟩ := hd
    unfold dd_add
    by_cases h : k2 = k
    · subst h
      rw [if_pos rfl]
      refine ⟨if g ∈ gs then gs else gs ++ [g], List.mem_cons_self _ _, ?_⟩
      by_cases hg : g ∈ gs <;> simp [hg]
    · rw [if_neg h]
      obtain ⟨gs', hmem, hg⟩ := ih
      exact ⟨gs', List.mem_cons_of_mem _ hmem, hg⟩

theorem dd_add_hasPair_mono (out : List (String × List (List String)))
    (k : String) (g : List String) (k' : String) (g' : List String)
    (h : hasPair out k' g') : hasPair (dd_add out k g) k' g' := by
  induction out with
  | nil => obtain ⟨gs', hmem, _⟩ := h; simp at hmem
  | cons hd rest ih =>
    obtain ⟨k2, gs⟩ := hd
    obtain ⟨gs', hmem, hg'⟩ := h
    unfold dd_add
    by_cases h2 : k2 = k
    · subst h2
      rw [if_pos rfl]
      rcases List.mem_cons.mp hmem with heq | htail
      · have hk : k' = k2 := congrArg Prod.fst heq
        have hgs : gs' = gs := congrArg Prod.snd heq
        refine ⟨if g ∈ gs then gs else gs ++ [g], ?_, ?_⟩
        · rw [hk]; exact List.mem_cons_self _ _
        · have hg2 : g' ∈ gs := hgs ▸ hg'
          by_cases hgmem : g ∈ gs
          · rw [if_pos hgmem]; exact hg2
          · rw [if_neg hgmem]; exact List.mem_append_left _ hg2
      · exact ⟨gs', List.mem_cons_of_mem _ htail, hg'⟩
    · rw [if_neg h2]
      rcases List.mem_cons.mp hmem with heq | htail
      · exact ⟨gs', heq ▸ List.mem_cons_self _ _, hg'⟩
      · obtain ⟨gs'', hmem'', hg''⟩ := ih ⟨gs', htail, hg'⟩
        exact ⟨gs'', List.mem_cons_of_mem _ hmem'', hg''⟩

theorem inner_foldl_hasPair_mono (cm : ClassMapping) (cls : String)
    (K : List String) (rl : List Result)
    (out : List (String × List (List String))) (k' : String)
    (g' : List String) (h : hasPair out k' g') :
    hasPair
      (rl.foldl
        (fun out2 x =>
          if Result.css_class cm x = cls then dd_add out2 x.cls K else out2)
        out) k' g' := by
  refine foldl_invariant (fun out2 => hasPair out2 k' g') _ ?_ rl out h
  intro b x hb
  by_cases hx : Result.css_class cm x = cls
  · rw [if_pos hx]; exact dd_add_hasPair_mono b x.cls K k' g' hb
  · rw [if_neg hx]; exact hb

theorem inner_foldl_adds (cm : ClassMapping) (cls : String) (K : List String)
    (r : Result) (hc : Result.css_class cm r = cls) :
    ∀ (rl : List Result) (out : List (String × List (List String))),
      r ∈ rl →
      hasPair
        (rl.foldl
          (fun out2 x =>
            if Result.css_class cm x = cls then dd_add out2 x.cls K else out2)
          out) r.cls K := by
  intro rl
  induction rl with
  | nil => intro out hr; simp at hr
  | cons x xs ih =>
    intro out hr
    rcases List.mem_cons.mp hr with heq | htail
    · subst heq
      rw [List.foldl_cons, if_pos hc]
      exact inner_foldl_hasPair_mono cm cls K xs _ r.cls K
        (dd_add_hasPair_self out r.cls K)
    · exact ih _ htail

theorem outer_foldl_hasPair_mono (cm : ClassMapping) (cls : String)
    (groups : List (List String × List Result))
    (out : List (String × List (List String))) (k' : String)
    (g' : List String) (h : hasPair out k' g') :
    hasPair
      (groups.foldl
        (fun out p =>
          p.2.foldl
            (fun out2 x =>
              if Result.css_class cm x = cls then dd_add out2 x.cls p.1
              else out2)
            out)
        out) k' g' := by
  refine foldl_invariant (fun out2 => hasPair out2 k' g') _ ?_ groups out h
  intro b p hb
  exact inner_foldl_hasPair_mono cm cls p.1 p.2 b k' g' hb

theorem outer_foldl_adds (cm : ClassMapping) (cls : String) (r : Result)
    (K : List String) (hc : Result.css_class cm r = cls) :
    ∀ (groups : List (List String × List Result))
      (out : List (String × List (List String))),
      (∃ p ∈ groups, r ∈ p.2 ∧ p.1 = K) →
      hasPair
        (groups.foldl
          (fun out p =>
            p.2.foldl
              (fun out2 x =>
                if Result.css_class cm x = cls then dd_add out2 x.cls p.1
                else out2)
              out)
          out) r.cls K := by
  intro groups
  induction groups with
  | nil => intro out h; obtain ⟨p, hp, _⟩ := h; simp at hp
  | cons q qs ih =>
    intro out h
    obtain ⟨p, hp, hrp, hpk⟩ := h
    rcases List.mem_cons.mp hp with heq | htail
    · subst heq
      rw [List.foldl_cons]
      refine outer_foldl_hasPair_mono cm cls qs _ r.cls K ?_
      rw [← hpk]
      exact inner_foldl_adds cm cls p.1 r hc p.2 out hrp
    · exact ih _ ⟨p, htail, hrp, hpk⟩

theorem group_results_aux_key (level : Nat) :
    ∀ (l : List (List String × Result)) (pg : List String) (pl : List Result),
      (∀ q ∈ l, q.1 = split_result_group1 q.2) →
      (∀ x ∈ pl, (split_result_group1 x).take level = pg) →
      ∀ p ∈ group_results_aux level l pg pl, ∀ x ∈ p.2,
        (split_result_group1 x).take level = p.1 := by
  intro l
  induction l with
  | nil =>
    intro pg pl _ hpl p hp x hx
    simp only [group_results_aux, List.mem_singleton] at hp
    subst hp
    exact hpl x hx
  | cons hd rest ih =>
    intro pg pl hq hpl p hp x hx
    obtain ⟨g, r⟩ := hd
    have hg1 : g = split_result_group1 r := hq (g, r) (List.mem_cons_self _ _)
    have hq' : ∀ q ∈ rest, q.1 = split_result_group1 q.2 :=
      fun q hq2 => hq q (List.mem_cons_of_mem _ hq2)
    unfold group_results_aux at hp
    by_cases hne : g.take level ≠ pg
    · rw [if_pos hne] at hp
      rcases List.mem_append.mp hp with hflush | hrec
      · by_cases hplne : pl ≠ []
        · rw [if_pos hplne] at hflush
          simp only [List.mem_singleton] at hflush
          subst hflush
          exact hpl x hx
        · rw [if_neg hplne] at hflush
          simp at hflush
      · exact ih (g.take level) [r] hq'
          (by
            intro y hy
            simp only [List.mem_singleton] at hy
            subst hy
            rw [← hg1])
          p hrec x hx
    · rw [if_neg hne] at hp
      simp only [ne_eq, not_not] at hne
      exact ih pg (pl ++ [r]) hq'
        (by
          intro y hy
          rcases List.mem_append.mp hy with hy1 | hy2
          · exact hpl y hy1
          · simp only [List.mem_singleton] at hy2
            subst hy2
            rw [← hg1, hne])
        p hp x hx

theorem group_results_key (l : List Result) (level : Nat) :
    ∀ p ∈ group_results l level, ∀ x ∈ p.2,
      (split_result_group1 x).take level = p.1 := by
  refine group_results_aux_key level (split_result_group l) [] [] ?_ ?_
  · intro q hq
    obtain ⟨r, _, hr⟩ := List.mem_map.mp hq
    rw [← hr]
  · intro x hx
    simp at hx

theorem mem_group_results (l : List Result) (level : Nat) (r : Result)
    (hr : r ∈ l) :
    ∃ p ∈ group_results l level, r ∈ p.2 ∧
      p.1 = (split_result_group1 r).take level := by
  have hflat : r ∈ ((group_results l level).map (fun p => p.2)).flatten := by
    rw [group_results_flatten]; exact hr
  obtain ⟨rl, hrl, hrrl⟩ := List.mem_flatten.mp hflat
  obtain ⟨p, hp, hp2⟩ := List.mem_map.mp hrl
  refine ⟨p, hp, hp2 ▸ hrrl, ?_⟩
  exact (group_results_key l level p hp r (hp2 ▸ hrrl)).symm

theorem find_of_class_out_complete (cm : ClassMapping) (l : List Result)
    (cls : String) (level : Nat) (r : Result) (hr : r ∈ l)
    (hc : Result.css_class cm r = cls) :
    hasPair (find_of_class_out cm l cls level) r.cls
      ((split_result_group1 r).take level) := by
  obtain ⟨p, hp, hrp, hpk⟩ := mem_group_results l level r hr
  exact outer_foldl_adds cm cls r _ hc (group_results l level) []
    ⟨p, hp, hrp, hpk⟩

/-- C5: every record of derived severity `"err"` contributes its class name
and depth-2 group key to the error index built by `find_of_class`: the
index is complete for that severity. -/
theorem find_of_class_complete (cm : ClassMapping) (l : List Result)
    (r : Result) (hr : r ∈ l) (hc : Result.css_class cm r = "err") :
    ∃ e ∈ find_of_class cm l "err", e.1 = r.cls ∧
      (split_result_group1 r).take 2 ∈ e.2 := by
  obtain ⟨gs, hmem, hg⟩ := find_of_class_out_complete cm l "err" 2 r hr hc
  refine ⟨(r.cls, gs.insertionSort tupLe), ?_, rfl, ?_⟩
  · unfold find_of_class
    refine List.mem_map.mpr ⟨(r.cls, gs), ?_, rfl⟩
    exact (List.perm_insertionSort itemLe _).mem_iff.mpr hmem
  · exact (List.perm_insertionSort tupLe gs).mem_iff.mpr hg

/-- A configuration mapping class `"X"` to `"err"`, with no excludes. -/
def cm5 : ClassMapping :=
  { class_mapping := [("X", "err")], excludes := [] }

/-- A concrete error record. -/
def r5 : Result := { cls := "X", category := "a", package := "b", version := "1" }

/-- The singleton input holding `r5`. -/
def l5 : List Result := [r5]

/-- Witness for C5 at a concrete input. -/
theorem find_of_class_complete_witness :
    (r5 ∈ l5 ∧ Result.css_class cm5 r5 = "err") ∧
      ∃ e ∈ find_of_class cm5 l5 "err", e.1 = r5.cls ∧
        (split_result_group1 r5).take 2 ∈ e.2 :=
  ⟨⟨by decide, by decide⟩,
    find_of_class_complete cm5 l5 r5 (by decide) (by decide)⟩

theorem dd_add_nodup (k : String) (g : List String) :
    ∀ (out : List (String × List (List String))),
      (∀ p ∈ out, p.2.Nodup) → ∀ p ∈ dd_add out k g, p.2.Nodup := by
  intro out
  induction out with
  | nil =>
    intro _ p hp
    simp only [dd_add, List.mem_singleton] at hp
    subst hp
    simp
  | cons hd rest ih =>
    obtain ⟨k2, gs⟩ := hd
    intro h p hp
    have hgs : gs.Nodup := h (k2, gs) (List.mem_cons_self _ _)
    unfold dd_add at hp
    by_cases h2 : k2 = k
    · rw [if_pos h2] at hp
      rcases List.mem_cons.mp hp with heq | htail
      · subst heq
        by_cases hg : g ∈ gs
        · simpa [hg] using hgs
        · simp [hg, List.nodup_append, hgs]
      · exact h _ (List.mem_cons_of_mem _ htail)
    · rw [if_neg h2] at hp
      rcases List.mem_cons.mp hp with heq | htail
      · subst heq
        exact hgs
      · exact ih (fun q hq => h q (List.mem_cons_of_mem _ hq)) p htail

theorem find_of_class_out_nodup (cm : ClassMapping) (l : List Result)
    (cls : String) (level : Nat) :
    ∀ p ∈ find_of_class_out cm l cls level, p.2.Nodup := by
  unfold find_of_class_out
  refine foldl_invariant
    (fun out : List (String × List (List String)) => ∀ p ∈ out, p.2.Nodup)
    _ ?_ (group_results l level) [] (by simp)
  intro b q hb
  refine foldl_invariant
    (fun out2 : List (String × List (List String)) => ∀ p ∈ out2, p.2.Nodup)
    _ ?_ q.2 b hb
  intro b2 x hb2
  by_cases hx : Result.css_class cm x = cls
  · rw [if_pos hx]; exact dd_add_nodup x.cls q.1 b2 hb2
  · rw [if_neg hx]; exact hb2

/-- C6: for a sorted input, `find_of_class` output is sorted by class name,
and each entry's group-key list is deduplicated and sorted by the tuple
order on (category, package); the whole pipeline is a pure function of its
inputs, so identical runs give identical indexes. -/
theorem find_of_class_sorted_dedup (cm : ClassMapping) (l : List Result)
    (cls : String) (hs : sortedByKey l) :
    List.Pairwise itemLe (find_of_class cm l cls) ∧
    ∀ e ∈ find_of_class cm l cls, List.Sorted tupLe e.2 ∧ e.2.Nodup := by
  constructor
  · unfold find_of_class
    refine List.Pairwise.map _ ?_ (List.sorted_insertionSort itemLe _)
    intro a b hab
    exact hab
  · intro e he
    unfold find_of_class at he
    obtain ⟨p, hp, hpe⟩ := List.mem_map.mp he
    constructor
    · rw [← hpe]
      exact List.sorted_insertionSort tupLe p.2
    · rw [← hpe]
      have hpout : p ∈ find_of_class_out cm l cls 2 :=
        (List.perm_insertionSort itemLe _).mem_iff.mp hp
      exact ((List.perm_insertionSort tupLe p.2).nodup_iff).mpr
        (find_of_class_out_nodup cm l cls 2 p hpout)

/-- A sorted three-record input with a duplicate (class, group) pair. -/
def l6 : List Result :=
  [{ cls := "X", category := "a", package := "b", version := "1" },
   { cls := "X", category := "a", package := "b", version := "2" },
   { cls := "X", category := "c", package := "d", version := "1" }]

/-- Witness for C6 at a concrete sorted input. -/
theorem find_of_class_sorted_dedup_witness :
    sortedByKey l6 ∧
      (List.Pairwise itemLe (find_of_class cm5 l6 "err") ∧
       ∀ e ∈ find_of_class cm5 l6 "err", List.Sorted tupLe e.2 ∧ e.2.Nodup) :=
  ⟨by decide, find_of_class_sorted_dedup cm5 l6 "err" (by decide)⟩

/-- `sorted(get_results(...), key=result_sort_key)` in `main`
(pkgcheck2html.py lines 233-236), embedded as insertion sort by the same
tuple order. -/
def sortByKey (l : List Result) : List Result :=
  l.insertionSort recLe

theorem get_results_no_verbose (cm : ClassMapping) (pf : Result → Bool)
    (r : Result) (hv : Result.verbose cm r = true) :
    ∀ l : List Result, r ∉ get_results cm false pf l := by
  intro l
  induction l with
  | nil => simp [get_results]
  | cons x xs ih =>
    by_cases hxv : Result.verbose cm x = true
    · simpa [get_results, hxv] using ih
    · by_cases hpf : pf x = true
      · simp only [get_results, hxv, hpf, Bool.false_and, Bool.not_false,
          Bool.and_true, Bool.not_true, if_false, Bool.false_eq_true,
          List.mem_cons, not_or]
        refine ⟨?_, ih⟩
        intro he
        rw [he] at hv
        exact hxv hv
      · simpa [get_results, hxv, hpf] using ih

theorem get_results_all_verbose (cm : ClassMapping) (pf : Result → Bool) :
    ∀ l : List Result, get_results cm true pf l = l.filter pf := by
  intro l
  induction l with
  | nil => simp [get_results]
  | cons x xs ih =>
    by_cases hpf : pf x = true <;>
      simp [get_results, List.filter_cons, hpf, ih]

/-- C7: a record whose derived severity is `"verbose"` is dropped during
record materialization (`get_results`), before the sort that precedes
grouping, whenever verbose output is not requested — independently of the
package/maintainer predicate, which is applied separately; with the
verbose flag set, only that predicate decides. -/
theorem get_results_drops_verbose (cm : ClassMapping) (pf : Result → Bool)
    (r : Result) (l : List Result) (hv : Result.verbose cm r = true) :
    r ∉ get_results cm false pf l ∧
    r ∉ sortByKey (get_results cm false pf l) ∧
    get_results cm true pf l = l.filter pf := by
  have h := get_results_no_verbose cm pf r hv l
  refine ⟨h, ?_, get_results_all_verbose cm pf l⟩
  intro hmem
  exact h ((List.perm_insertionSort recLe _).mem_iff.mp hmem)

/-- A configuration mapping class `"V"` to the `"verbose"` severity. -/
def cmv : ClassMapping :=
  { class_mapping := [("V", "verbose")], excludes := [] }

/-- A concrete verbose record. -/
def rv : Result := { cls := "V", category := "a", package := "b", version := "1" }

/-- Witness for C7: the concrete verbose record is dropped from its own
singleton input under a predicate that accepts everything. -/
theorem get_results_drops_verbose_witness :
    Result.verbose cmv rv = true ∧
      (rv ∉ get_results cmv false (fun _ => true) [rv] ∧
       rv ∉ sortByKey (get_results cmv false (fun _ => true) [rv]) ∧
       get_results cmv true (fun _ => true) [rv] =
         [rv].filter (fun _ => true)) :=
  ⟨by decide, get_results_drops_verbose cmv (fun _ => true) rv [rv] (by decide)⟩

/-- Python `str.replace` on character lists, fuelled by the input length
(each step consumes at least one character, so the fuel never runs out
when initialised with the length). -/
def replaceChars (pat rep : List Char) : Nat → List Char → List Char
  | 0, l => l
  | _ + 1, [] => []
  | f + 1, c :: rest =>
    if pat ≠ [] ∧ pat.isPrefixOf (c :: rest) then
      rep ++ replaceChars pat rep f ((c :: rest).drop pat.length)
    else c :: replaceChars pat rep f rest

/-- Python `s.replace(pat, rep)` for strings. -/
def creplace (pat rep s : String) : String :=
  String.mk (replaceChars pat.data rep.data s.data.length s.data)

/-- `format_maint` (pkgcheck2html.py lines 121-122), applied to the email
text of one maintainer element. -/
def format_maint (email : String) : String :=
  creplace "@gentoo.org" "@g.o" email

/-- `os.path.join(self.repo, k, 'metadata.xml')` with `/` separators. -/
def metaPath (repo k : String) : String :=
  repo ++ "/" ++ k ++ "/metadata.xml"

/-- `MaintainerGetter.__getitem__` (pkgcheck2html.py lines 153-161):
`readMeta` embeds parsing `metadata.xml` — `none` when the read raises
`OSError`, `some emails` with the maintainer email texts otherwise.  On a
read failure the method returns the EMPTY list; the sentinel is returned
only when the file parses and lists zero maintainers. -/
def MaintainerGetter.getitem (readMeta : String → Option (List String))
    (repo k : String) : List String :=
  match readMeta (metaPath repo k) with
  | none => []
  | some entries =>
    let maints := entries.map format_maint
    if maints ≠ [] then maints else ["maintainer-needed"]

theorem getitem_empty_meta (readMeta : String → Option (List String))
    (repo k : String) (h : readMeta (metaPath repo k) = some []) :
    MaintainerGetter.getitem readMeta repo k = ["maintainer-needed"] := by
  unfold MaintainerGetter.getitem
  rw [h]
  simp

/-- C4 counterexample: when reading the metadata fails, the lookup returns
`[]`, not the sentinel `["maintainer-needed"]` that the claim requires. -/
theorem maintainer_read_failure_cex :
    MaintainerGetter.getitem (fun _ => none) "r" "c/p" = [] ∧
      ([] : List String) ≠ ["maintainer-needed"] :=
  ⟨rfl, by decide⟩

/-- C4 (amended): the sentinel is returned exactly when the metadata reads
successfully but lists zero maintainers; a read failure yields the empty
list (the failure is swallowed, never propagated, but the result differs
from the zero-maintainer case); a successful non-empty read yields the
formatted maintainer list. -/
theorem maintainer_getter_fallback (readMeta : String → Option (List String))
    (repo k : String) :
    (readMeta (metaPath repo k) = none →
      MaintainerGetter.getitem readMeta repo k = []) ∧
    (readMeta (metaPath repo k) = some [] →
      MaintainerGetter.getitem readMeta repo k = ["maintainer-needed"]) ∧
    (∀ ms, readMeta (metaPath repo k) = some ms → ms ≠ [] →
      MaintainerGetter.getitem readMeta repo k = ms.map format_maint) := by
  refine ⟨?_, ?_, ?_⟩
  · intro h
    unfold MaintainerGetter.getitem
    rw [h]
  · exact getitem_empty_meta readMeta repo k
  · intro ms h hne
    unfold MaintainerGetter.getitem
    rw [h]
    simp [hne]

/-- A metadata source with an empty maintainer list for `c/p`. -/
def readMeta4 : String → Option (List String) :=
  fun p => if p = "r/c/p/metadata.xml" then some [] else none

/-- Witness for C4 (amended) in the zero-maintainer case. -/
theorem maintainer_getter_fallback_witness :
    readMeta4 (metaPath "r" "c/p") = some [] ∧
      MaintainerGetter.getitem readMeta4 "r" "c/p" = ["maintainer-needed"] :=
  ⟨by decide, (maintainer_getter_fallback readMeta4 "r" "c/p").2.1 (by decide)⟩

/-- Python `'@' in m`. -/
def scontains (s : String) (c : Char) : Bool :=
  s.data.contains c

/-- Python `m.endswith(suffix)`. -/
def sendsWith (s suffix : String) : Bool :=
  suffix.data.isSuffixOf s.data

/-- The maintainer-argument normalization in `main` (pkgcheck2html.py lines
207-211): append `@gentoo.org` when no `@` is present, expand a trailing
`@g.o` to `@gentoo.org`. -/
def normalize_maintainer (m : String) : String :=
  if !(scontains m '@') then m ++ "@gentoo.org"
  else if sendsWith m "@g.o" then creplace "@g.o" "@gentoo.org" m
  else m

/-- The match set built in `main` (pkgcheck2html.py lines 213-223) from the
normalized maintainer `m` and the project-expansion result `projExp`: for a
non-sentinel maintainer, `{m} ∪ projExp` with `@gentoo.org` shortened to
`@g.o`; for the sentinel, the single entry `maintainer-needed`. -/
def build_match (m : String) (projExp : List String) : List String :=
  if m ≠ "maintainer-needed@gentoo.org" then
    (m :: projExp).map (fun x => creplace "@gentoo.org" "@g.o" x)
  else ["maintainer-needed"]

/-- The `maint_filter` lambda in `main` (pkgcheck2html.py lines 224-225):
keep a record iff the match set intersects the `MaintainerGetter` entry for
`category/package`. -/
def maint_filter (match_set : List String)
    (readMeta : String → Option (List String)) (repo : String)
    (r : Result) : Bool :=
  match_set.any (fun x =>
    (MaintainerGetter.getitem readMeta repo
      (r.category ++ "/" ++ r.package)).contains x)

theorem replaceChars_mem_at (pat rep : List Char) (hrep : '@' ∈ rep) :
    ∀ (f : Nat) (l : List Char), '@' ∈ l → '@' ∈ replaceChars pat rep f l := by
  intro f
  induction f with
  | zero => intro l h; exact h
  | succ f ih =>
    intro l h
    cases l with
    | nil => simp at h
    | cons c rest =>
      unfold replaceChars
      by_cases hp : pat ≠ [] ∧ pat.isPrefixOf (c :: rest)
      · rw [if_pos hp]
        exact List.mem_append_left _ hrep
      · rw [if_neg hp]
        rcases List.mem_cons.mp h with he | ht
        · exact List.mem_cons.mpr (Or.inl he)
        · exact List.mem_cons.mpr (Or.inr (ih rest ht))

theorem creplace_contains_at (pat rep : String) (hrep : '@' ∈ rep.data)
    (s : String) (hs : '@' ∈ s.data) : '@' ∈ (creplace pat rep s).data :=
  replaceChars_mem_at pat.data rep.data hrep s.data.length s.data hs

theorem normalize_contains_at (m : String) :
    '@' ∈ (normalize_maintainer m).data := by
  unfold normalize_maintainer
  by_cases h1 : scontains m '@' = true
  · have hm : '@' ∈ m.data := by
      unfold scontains at h1
      simpa using h1
    rw [if_neg (by simp [h1])]
    by_cases h2 : sendsWith m "@g.o" = true
    · rw [if_pos h2]
      exact creplace_contains_at _ _ (by decide) m hm
    · rw [if_neg h2]
      exact hm
  · rw [if_pos (by simp [h1])]
    rw [String.data_append]
    exact List.mem_append_right _ (by decide)

theorem build_match_no_sentinel (m : String)
    (hne : normalize_maintainer m ≠ "maintainer-needed@gentoo.org") :
    "maintainer-needed" ∉ build_match (normalize_maintainer m) [] := by
  unfold build_match
  rw [if_pos hne]
  intro hmem
  simp only [List.map, List.mem_singleton] at hmem
  have hat : '@' ∈ (creplace "@gentoo.org" "@g.o" (normalize_maintainer m)).data :=
    creplace_contains_at _ _ (by decide) _ (normalize_contains_at m)
  rw [← hmem] at hat
  exact absurd hat (by decide)

/-- C8 counterexample: with the filter identity normalizing to the
sentinel, a record whose metadata lists the literal maintainer entries
`maintainer-needed` and `foo@gentoo.org` is KEPT although its
MaintainerIndex entry is not the sentinel list: the predicate tests
membership of the sentinel, not equality with the sentinel list. -/
def readMeta8 : String → Option (List String) :=
  fun p => if p = "r/c/p/metadata.xml"
    then some ["maintainer-needed", "foo@gentoo.org"] else none

/-- The record the C8 counterexample filters. -/
def r8 : Result := { cls := "X", category := "c", package := "p", version := "1" }

theorem maint_filter_sentinel_cex :
    normalize_maintainer "maintainer-needed" = "maintainer-needed@gentoo.org" ∧
    maint_filter (build_match (normalize_maintainer "maintainer-needed") [])
      readMeta8 "r" r8 = true ∧
    MaintainerGetter.getitem readMeta8 "r" "c/p" ≠ ["maintainer-needed"] :=
  ⟨by decide, by decide, by decide⟩

/-- C8 (amended): when the filter identity normalizes to the sentinel, the
predicate keeps exactly the records whose MaintainerIndex entry CONTAINS
the sentinel identity (for entries produced from real metadata this is the
sentinel list itself); for a non-sentinel identity without project
expansion, a record whose package metadata lists zero maintainers is never
kept (e.g. with filter nobody@gentoo.org, zero such records survive). -/
theorem maint_filter_sentinel_amended (readMeta : String → Option (List String))
    (repo : String) (r : Result) (m : String) (projExp : List String) :
    (normalize_maintainer m = "maintainer-needed@gentoo.org" →
      (maint_filter (build_match (normalize_maintainer m) projExp)
          readMeta repo r = true ↔
        "maintainer-needed" ∈
          MaintainerGetter.getitem readMeta repo
            (r.category ++ "/" ++ r.package))) ∧
    (normalize_maintainer m ≠ "maintainer-needed@gentoo.org" →
      readMeta (metaPath repo (r.category ++ "/" ++ r.package)) = some [] →
      maint_filter (build_match (normalize_maintainer m) [])
        readMeta repo r = false) := by
  constructor
  · intro h
    rw [h]
    unfold build_match
    rw [if_neg (by simp)]
    unfold maint_filter
    simp
  · intro hne hmeta
    have hent :=
      getitem_empty_meta readMeta repo (r.category ++ "/" ++ r.package) hmeta
    have hnot := build_match_no_sentinel m hne
    unfold maint_filter
    rw [hent, List.any_eq_false]
    intro x hx hcx
    have hx2 : x = "maintainer-needed" := by simpa using hcx
    exact hnot (hx2 ▸ hx)

/-- Witness for C8 (amended): the concrete scenario from the claim — filter
`nobody@gentoo.org` against a package with an empty maintainer list keeps
nothing. -/
theorem maint_filter_sentinel_amended_witness :
    (normalize_maintainer "nobody@gentoo.org" ≠ "maintainer-needed@gentoo.org" ∧
     readMeta4 (metaPath "r" (r8.category ++ "/" ++ r8.package)) = some []) ∧
    maint_filter (build_match (normalize_maintainer "nobody@gentoo.org") [])
      readMeta4 "r" r8 = false :=
  ⟨⟨by decide, by decide⟩,
    (maint_filter_sentinel_amended readMeta4 "r" r8 "nobody@gentoo.org"
      []).2 (by decide) (by decide)⟩

/-- One `<project>` element of `projects.xml`: its email identity, direct
member emails, and `(ref, inherit-members == '1')` subproject references. -/
structure Project where
  email : String
  members : List String
  subprojects : List (String × Bool)

/-- The inherited-subproject part of `ProjectGetter.__getitem__`
(pkgcheck2html.py lines 142-146): for each subproject flagged inheritable,
splice in the resolver's members for its ref, in order. -/
def subMembers (lookup : String → Option (List String)) :
    List (String × Bool) → Option (List String)
  | [] => some []
  | sp :: rest =>
    (if sp.2 then lookup sp.1 else some []).bind fun here =>
      (subMembers lookup rest).map fun there => here ++ there

/-- The per-matching-project part of `ProjectGetter.__getitem__`
(pkgcheck2html.py lines 136-146): direct members first, then inherited
subproject members, for every project whose email equals the key. -/
def projMembers (lookup : String → Option (List String)) :
    List Project → Option (List String)
  | [] => some []
  | x :: rest =>
    (subMembers lookup x.subprojects).bind fun subs =>
      (projMembers lookup rest).map fun more => x.members ++ subs ++ more

/-- `ProjectGetter.__getitem__` (pkgcheck2html.py lines 135-146), indexed
by a recursion-depth fuel: the method recurses into inherited subprojects
with NO visited set, so the embedding returns `none` when the nesting
exceeds the fuel.  A call that completes at some finite fuel models a
terminating run; a call that is `none` for every fuel models the
unbounded recursion (Python's RecursionError). -/
def ProjectGetter.getitem (ps : List Project) :
    Nat → String → Option (List String)
  | 0, _ => none
  | f + 1, k =>
    projMembers (fun k2 => ProjectGetter.getitem ps f k2)
      (ps.filter (fun x => x.email == k))

/-- The cyclic membership graph from the claim: P1 and P2 reference each
other as subprojects with inherit-members set both ways, and P1 has one
direct member. -/
def cycProjects : List Project :=
  [{ email := "P1@gentoo.org", members := ["m@gentoo.org"],
     subprojects := [("P2@gentoo.org", true)] },
   { email := "P2@gentoo.org", members := [],
     subprojects := [("P1@gentoo.org", true)] }]

/-- C2: on the cyclic graph, resolving either project never completes at
any recursion depth: `__getitem__` has no cycle guard, so transitive
membership resolution does not terminate on cyclic `subprojectRefs`
(contrary to the claim, which the specification's visited-set design
would satisfy). -/
theorem getitem_cyclic_diverges :
    ∀ fuel, ProjectGetter.getitem cycProjects fuel "P2@gentoo.org" = none ∧
      ProjectGetter.getitem cycProjects fuel "P1@gentoo.org" = none := by
  intro fuel
  induction fuel with
  | zero => exact ⟨rfl, rfl⟩
  | succ f ih =>
    obtain ⟨ih1, ih2⟩ := ih
    unfold cycProjects at ih1 ih2
    refine ⟨?_, ?_⟩ <;>
      simp [ProjectGetter.getitem, cycProjects, projMembers, subMembers,
        ih1, ih2]

/-- The same graph with the cycle edge removed: resolution completes at
fuel 2 and P2 inherits P1's direct member, confirming that the embedding
resolves inheritance exactly as the source does on acyclic input. -/
def chainProjects : List Project :=
  [{ email := "P1@gentoo.org", members := ["m@gentoo.org"],
     subprojects := [] },
   { email := "P2@gentoo.org", members := [],
     subprojects := [("P1@gentoo.org", true)] }]

theorem getitem_chain_resolves :
    ProjectGetter.getitem chainProjects 2 "P2@gentoo.org" =
      some ["m@gentoo.org"] := by decide
